import Mathlib

/-!
# Verification of `update_readme.py`

A shallow embedding of the README-generating script `update_readme.py` and
proofs about it.  The script scans topic directories for `.md` files, builds a
nested dictionary per topic (documents are stored under the reserved key
`"__files__"`, subdirectories under their own names), renders each tree to
Markdown and assembles the final `README.md` text.

Modelling conventions:
* Python strings are Lean `String`s; character-level operations (`strip`,
  `lower`, lexicographic comparison) are modelled on the underlying `List Char`
  (code points).  `str.lower` is modelled for the ASCII range, which covers the
  names appearing in the claims.
* Python dicts are insertion-ordered association lists (`List (String × PyVal)`)
  with overwrite-in-place assignment, as in CPython 3.7+.
* Python exceptions are modelled with `Except PyErr`; `OSError` while listing a
  directory and `UnicodeDecodeError` while reading a file are represented as
  `none` fields of the file-system model.
* Python's `sorted`/`list.sort` (a stable sort) is modelled with Mathlib's
  stable `List.insertionSort`.
* `os.linesep` is modelled as `"\n"` (the script runs on a Unix host).
-/

namespace UpdateReadme

/-! ## Python string primitives -/

/-- Python `str.strip()`: remove leading and trailing whitespace. -/
def pyStrip (s : String) : String :=
  ⟨((s.data.dropWhile Char.isWhitespace).reverse.dropWhile Char.isWhitespace).reverse⟩

/-- Python `str.startswith(pre)`. -/
def pyStartsWith (s pre : String) : Bool :=
  pre.data.isPrefixOf s.data

/-- ASCII lowercasing of one character, as `str.lower` acts on ASCII input. -/
def pyCharLower (c : Char) : Char :=
  if 65 ≤ c.toNat ∧ c.toNat ≤ 90 then Char.ofNat (c.toNat + 32) else c

/-- Python `str.lower()` (ASCII range). -/
def pyLower (s : String) : String :=
  ⟨s.data.map pyCharLower⟩

/-- Lexicographic comparison of code-point sequences: this is how Python
compares two strings with `<=`. -/
def lexLe : List Char → List Char → Bool
  | [], _ => true
  | _ :: _, [] => false
  | a :: as, b :: bs => if a < b then true else if a = b then lexLe as bs else false

/-- The sort key `p.name.lower()` compared with Python string order. -/
def keyLe (a b : String) : Prop := lexLe (pyLower a).data (pyLower b).data = true

instance : DecidableRel keyLe := fun _ _ => inferInstanceAs (Decidable (_ = _))

/-- The string `"#" * n`. -/
def hashes (n : Nat) : String := ⟨List.replicate n '#'⟩

/-! ## Configuration constants of the script -/

/-- The set `IGNORE_DIRS = {'.git', '.github', 'scripts', '__pycache__', 'node_modules'}`. -/
def IGNORE_DIRS : List String := [".git", ".github", "scripts", "__pycache__", "node_modules"]

/-- The set `IGNORE_FILES = {'README.md'}`. -/
def IGNORE_FILES : List String := ["README.md"]

/-- The test `pathlib.Path.suffix == '.md'`: the name ends in `".md"` and the final dot
is not the first character (`Path.suffix` is empty for names like `".md"`). -/
def hasMdSuffix (n : String) : Bool :=
  List.isSuffixOf ".md".data n.data && decide (4 ≤ n.data.length)

/-- Python `pathlib.Path.stem` for a qualifying document name: the name with its
`".md"` suffix removed.  (Names that do not carry the suffix are returned
unchanged; the script only takes stems of qualifying names.) -/
def pyStem (n : String) : String :=
  if hasMdSuffix n then ⟨n.data.take (n.data.length - 3)⟩ else n

/-! ## `extract_title_from_md`

The script iterates over the lines of the file; a line is modelled without its
trailing newline (which `line.strip()` removes anyway).  `re.sub(r'^#+\s*', '',
line)` on a line that starts with `'#'` removes the leading run of `'#'`
characters and the following run of whitespace. -/

/-- The substitution `re.sub(r'^#+\s*', '', line)` for a line whose first character is `'#'`. -/
def stripHeadingMarkers (s : String) : String :=
  ⟨(s.data.dropWhile (· == '#')).dropWhile Char.isWhitespace⟩

/-- The function `extract_title_from_md`, given the decoded lines of the file and the
file's stem for the fallback. -/
def extract_title_from_md (lines : List String) (stem : String) : String :=
  match lines with
  | [] => stem
  | l :: ls =>
    let line := pyStrip l
    if pyStartsWith line "#" then pyStrip (stripHeadingMarkers line)
    else extract_title_from_md ls stem

/-! ## The tree data (Python dicts) -/

/-- A value stored in the tree dictionary: either the list of
`(title, relative_path)` tuples kept under the reserved key `"__files__"`, or a
nested directory dictionary. -/
inductive PyVal : Type where
  | files : List (String × String) → PyVal
  | dict : List (String × PyVal) → PyVal

/-- A Python dict as an insertion-ordered association list. -/
abbrev PyTree := List (String × PyVal)

/-- Python exceptions that the script can raise. -/
inductive PyErr : Type where
  /-- Raised as `OSError` while listing a directory. -/
  | listingError
  /-- Raised as `UnicodeDecodeError` while reading a document. -/
  | decodeError
  /-- Raised as `KeyError` on `tree["__files__"]`. -/
  | keyError
  /-- Raised as `AttributeError`: `.append` called on a dict, or `.keys` on a list. -/
  | attributeError
  /-- Raised as `ValueError`: iterating a dict's keys as `(title, path)` pairs. -/
  | valueError
deriving DecidableEq

/-- Dict assignment `t[k] = v`: overwrite in place, else append at the end. -/
def dictInsert {β : Type} (t : List (String × β)) (k : String) (v : β) : List (String × β) :=
  match t with
  | [] => [(k, v)]
  | (k', v') :: rest => if k' = k then (k', v) :: rest else (k', v') :: dictInsert rest k v

/-- Dict lookup `t.get(k)`. -/
def dictGet? {β : Type} (t : List (String × β)) (k : String) : Option β :=
  match t with
  | [] => none
  | (k', v) :: rest => if k' = k then some v else dictGet? rest k

/-! ## The file-system model -/

/-- One entry of a directory listing.  A file carries its decoded lines, or
`none` when reading it raises `UnicodeDecodeError`; a directory carries its
listing, or `none` when listing it raises `OSError`. -/
inductive FSEntry : Type where
  | file (name : String) (content : Option (List String)) : FSEntry
  | dir (name : String) (listing : Option (List FSEntry)) : FSEntry

def FSEntry.name : FSEntry → String
  | .file n _ => n
  | .dir n _ => n

/-- Python `sorted(entries, key=lambda p: p.name.lower())` — a stable sort on the
lowercased name. -/
def entryKeyLe (a b : FSEntry) : Prop := keyLe a.name b.name

instance : DecidableRel entryKeyLe := fun _ _ => inferInstanceAs (Decidable (_ = _))

def sortEntries (es : List FSEntry) : List FSEntry := List.insertionSort entryKeyLe es

theorem sizeOf_eq_of_perm {α} [SizeOf α] {l₁ l₂ : List α} (h : l₁.Perm l₂) :
    sizeOf l₁ = sizeOf l₂ := by
  induction h with
  | nil => rfl
  | cons x _ ih => simp [ih]
  | swap x y l => simp; omega
  | trans _ _ ih₁ ih₂ => omega

theorem sizeOf_sortEntries (es : List FSEntry) : sizeOf (sortEntries es) = sizeOf es :=
  sizeOf_eq_of_perm (List.perm_insertionSort _ es)

/-! ## `build_directory_tree`

`buildGo` is the loop body of `build_directory_tree`: it processes the sorted
entries of the current directory in order, threading the tree dictionary.
`pfx` is the path of the current directory relative to the repository root
(`item.relative_to(ROOT_DIR)` of a file is then `pfx ++ "/" ++ name`). -/

/-- The title of a document: `extract_title_from_md(item)`; reading the file
raises `UnicodeDecodeError` when its content is `none`. -/
def extractTitle (name : String) (content : Option (List String)) : Except PyErr String :=
  match content with
  | none => .error .decodeError
  | some lines => .ok (extract_title_from_md lines (pyStem name))

def buildGo (pfx : String) (tree : PyTree) : List FSEntry → Except PyErr PyTree
  | [] => .ok tree
  | .dir n listing :: rest =>
    if n ∈ IGNORE_DIRS then buildGo pfx tree rest
    else
      match listing with
      | none => .error .listingError
      | some sub =>
        match buildGo (pfx ++ "/" ++ n) [("__files__", PyVal.files [])] (sortEntries sub) with
        | .error e => .error e
        | .ok subtree => buildGo pfx (dictInsert tree n (PyVal.dict subtree)) rest
  | .file n content :: rest =>
    if hasMdSuffix n && !IGNORE_FILES.contains n then
      match extractTitle n content with
      | .error e => .error e
      | .ok title =>
        match dictGet? tree "__files__" with
        | some (PyVal.files fl) =>
            buildGo pfx
              (dictInsert tree "__files__" (PyVal.files (fl ++ [(title, pfx ++ "/" ++ n)]))) rest
        | some (PyVal.dict _) => .error .attributeError
        | none => .error .keyError
    else buildGo pfx tree rest
termination_by es => sizeOf es
decreasing_by
  all_goals simp [sizeOf_sortEntries]
  all_goals omega

/-- The function `build_directory_tree(current_dir)`: list the directory (raising `OSError`
when the listing fails), then process the entries sorted case-insensitively,
starting from `{"__files__": []}`. -/
def build_directory_tree (pfx : String) (listing : Option (List FSEntry)) :
    Except PyErr PyTree :=
  match listing with
  | none => .error .listingError
  | some es => buildGo pfx [("__files__", PyVal.files [])] (sortEntries es)

/-! ## `render_subtree`

The renderer collects a list of `lines` — some of which are whole rendered
sub-blocks — and joins them with `"\n"` (no line is ever `None`, so the
filter in the source is the identity).

Two dynamic-typing failure modes of the source are modelled explicitly:
* if `tree["__files__"]` is a (non-empty) dict — which happens after a real
  subdirectory named `__files__` overwrote the document list — then iterating
  it as `for (title, rel_path) in files` unpacks its keys; the first key of
  every dict the builder produces is the 9-character string `"__files__"`, so
  this raises `ValueError`;
* if the value under a subdirectory key is a list (not a dict), the recursive
  call's `tree.get` raises `AttributeError`. -/

/-- The `subdirs` of the loop in `render_subtree`: every key except
`"__files__"`, paired with its value, sorted case-insensitively (Python sorts
the keys; keys are unique, so sorting the key–value pairs is the same). -/
def pairKeyLe (a b : String × PyVal) : Prop := keyLe a.1 b.1

instance : DecidableRel pairKeyLe := fun _ _ => inferInstanceAs (Decidable (_ = _))

def subdirsOf (tree : PyTree) : List (String × PyVal) :=
  List.insertionSort pairKeyLe (tree.filter (fun kv => kv.1 ≠ "__files__"))

/-- Left-to-right sequencing of the per-subdirectory blocks: the first
exception wins, as in the Python loop. -/
def seqExcept : List (Except PyErr (List String)) → Except PyErr (List String)
  | [] => .ok []
  | .error e :: _ => .error e
  | .ok x :: rest => (seqExcept rest).map (fun ys => x ++ ys)

/-- The `- [title](rel_path)` lines followed by one blank line, emitted when
`files` is non-empty. -/
def fileLines (tree : PyTree) : Except PyErr (List String) :=
  match dictGet? tree "__files__" with
  | none => .ok []
  | some (PyVal.files l) =>
      if l.isEmpty then .ok []
      else .ok ((l.map (fun d => "- [" ++ d.1 ++ "](" ++ d.2 ++ ")")) ++ [""])
  | some (PyVal.dict d) => if d.isEmpty then .ok [] else .error .valueError

def render_subtree (tree : PyTree) (heading_level : Nat) (parent_path : String) :
    Except PyErr String :=
  match fileLines tree with
  | .error e => .error e
  | .ok fl =>
    let blocks := (subdirsOf tree).attach.map (fun x =>
      match x with
      | ⟨(_, PyVal.files _), _⟩ => Except.error PyErr.attributeError
      | ⟨(k, PyVal.dict d), _⟩ =>
          (render_subtree d (heading_level + 1) (parent_path ++ "/" ++ k)).map
            (fun s => [hashes heading_level ++ " " ++ k, "", s, ""]))
    match seqExcept blocks with
    | .error e => .error e
    | .ok bls => .ok (String.intercalate "\n" (fl ++ bls))
termination_by sizeOf tree
decreasing_by
  rename_i h
  have h2 : (k, PyVal.dict d) ∈ (tree.filter (fun kv => kv.1 ≠ "__files__")) :=
    (List.mem_insertionSort pairKeyLe).mp h
  have h4 := List.sizeOf_lt_of_mem (List.mem_of_mem_filter h2)
  simp at h4
  omega

/-! ## `make_anchor` -/

/-- The substitution `re.sub(r'\s+', '-', s)`: replace every maximal whitespace run by a single
`'-'`, scanning left to right.  The `Bool` argument records whether the
previous character belonged to a whitespace run already replaced. -/
def collapseWs : Bool → List Char → List Char
  | _, [] => []
  | inRun, c :: cs =>
    if c.isWhitespace then
      if inRun then collapseWs true cs else '-' :: collapseWs true cs
    else c :: collapseWs false cs

/-- The function `make_anchor(text, level=2)` (the `level` parameter is unused in the
source): `re.sub(r'\s+', '-', text.lower())`. -/
def make_anchor (text : String) : String :=
  ⟨collapseWs false (pyLower text).data⟩

/-! ## `generate_readme` -/

/-- Python `sorted(names, key=str.lower)`. -/
def sortNames (ns : List String) : List String := List.insertionSort keyLe ns

/-- The loop building `categories_lines`: `f"- [{topic_name}](#{anchor})"`. -/
def categoriesGo : List String → List String
  | [] => []
  | n :: ns => ("- [" ++ n ++ "](#" ++ make_anchor n ++ ")") :: categoriesGo ns

/-- The loop building `articles_lines`: for each topic (already sorted) a
`### name` heading followed by `render_subtree(tree, 4, name)`. -/
def articlesGo (topics : List (String × PyTree)) : List String → Except PyErr (List String)
  | [] => .ok []
  | n :: ns =>
    match dictGet? topics n with
    | none => .error .keyError
    | some tree =>
      match render_subtree tree 4 n with
      | .error e => .error e
      | .ok md => (articlesGo topics ns).map (fun rest => ("### " ++ n) :: md :: rest)

/-- The fixed document template of `generate_readme`, with `os.linesep`
rendered as `"\n"`. -/
def readmeText (cats arts : List String) : String :=
  "# TIL (Today I Learned)\n\n日々学習したことを簡単にまとめたリポジトリです。\n\nあくまで個人的な学習メモであり、正確性を保証するものではありません。\n\n※こちらのファイルは自動生成されており直接修正することは禁止です。\n\n## Categories\n"
    ++ String.intercalate "\n" cats
    ++ "\n\n## Articles\n"
    ++ String.intercalate "\n" arts
    ++ "\n"

def generate_readme (topics : List (String × PyTree)) : Except PyErr String :=
  match articlesGo topics (sortNames (topics.map Prod.fst)) with
  | .error e => .error e
  | .ok arts => .ok (readmeText (categoriesGo (sortNames (topics.map Prod.fst))) arts)

/-! ## `main` -/

/-- The top-level topic selection: directories whose name is not in
`IGNORE_DIRS`, then `topic_dirs.sort(key=lambda d: d.name.lower())`. -/
def topicDirsOf (items : List FSEntry) : List FSEntry :=
  List.insertionSort entryKeyLe (items.filter (fun e =>
    match e with
    | .dir n _ => !IGNORE_DIRS.contains n
    | .file _ _ => false))

/-- The loop `all_topics_data[topic_dir.name] = build_directory_tree(topic_dir)`. -/
def buildTopicsGo (acc : List (String × PyTree)) :
    List FSEntry → Except PyErr (List (String × PyTree))
  | [] => .ok acc
  | .file _ _ :: rest => buildTopicsGo acc rest
  | .dir n listing :: rest =>
    match build_directory_tree n listing with
    | .error e => .error e
    | .ok tree => buildTopicsGo (dictInsert acc n tree) rest

/-- The function `main()` up to (but not including) the write of `README.md`: returns the
full text to be written, or the exception that aborted the run.  The argument
is the listing of `ROOT_DIR` (or `none` when even that listing fails). -/
def mainRun (rootListing : Option (List FSEntry)) : Except PyErr String :=
  match rootListing with
  | none => .error .listingError
  | some items =>
    match buildTopicsGo [] (topicDirsOf items) with
    | .error e => .error e
    | .ok topics => generate_readme topics

/-- The write performed by `main`: `README_PATH.open('w')` happens only after
`generate_readme` has returned, so a run that raises writes nothing. -/
def mainWrites (rootListing : Option (List FSEntry)) : List (String × String) :=
  match mainRun rootListing with
  | .ok content => [("README.md", content)]
  | .error _ => []

/-! ## Auxiliary definitions used by the statements and proofs -/

/-- The by-name form of the subdirectory loop body of `render_subtree` (the
definition itself carries a membership proof for termination). -/
def subdirBlock (lvl : Nat) (parent : String) (kv : String × PyVal) :
    Except PyErr (List String) :=
  match kv with
  | (_, PyVal.files _) => Except.error PyErr.attributeError
  | (k, PyVal.dict d) =>
      (render_subtree d (lvl + 1) (parent ++ "/" ++ k)).map
        (fun s => [hashes lvl ++ " " ++ k, "", s, ""])

/-- Well-typed trees: the reserved key `"__files__"` holds a tuple list, every
other key holds a nested dict, recursively.  Every tree the builder produces
from a directory containing no entry literally named `__files__` has this
shape. -/
def WFtree : PyTree → Bool
  | [] => true
  | (k, v) :: rest =>
      (if k = "__files__" then (match v with | .files _ => true | .dict _ => false)
       else (match v with | .files _ => false | .dict d => WFtree d)) && WFtree rest
termination_by t => sizeOf t
decreasing_by
  all_goals simp
  all_goals omega

/-- The node's document list: the tuples stored under `"__files__"`. -/
def docsOf (t : PyTree) : List (String × String) :=
  match dictGet? t "__files__" with
  | some (PyVal.files l) => l
  | _ => []

/-- The link line of one document, as the claim words it: label = title,
target = relative path. -/
def linkLine (d : String × String) : String := "- [" ++ d.1 ++ "](" ++ d.2 ++ ")"

/-- Rendering as literally described by the specification: the link lines, one
blank separator line iff at least one document was listed, then for each child
directory (case-insensitively sorted) a heading with `heading_level` marker
characters and the child's name, a blank line, the recursive render at
`heading_level + 1`, and a trailing blank line; all joined by newlines. -/
def claimRender (t : PyTree) (lvl : Nat) : String :=
  String.intercalate "\n"
    ((docsOf t).map linkLine
      ++ (if docsOf t = [] then [] else [""])
      ++ ((subdirsOf t).attach.map (fun x =>
            match x with
            | ⟨(_, PyVal.files _), _⟩ => []
            | ⟨(k, PyVal.dict d), _⟩ => [hashes lvl ++ " " ++ k, "", claimRender d (lvl + 1), ""])).flatten)
termination_by sizeOf t
decreasing_by
  rename_i h
  have h2 : (k, PyVal.dict d) ∈ (t.filter (fun kv => kv.1 ≠ "__files__")) :=
    (List.mem_insertionSort pairKeyLe).mp h
  have h4 := List.sizeOf_lt_of_mem (List.mem_of_mem_filter h2)
  simp at h4
  omega

/-- The by-name form of the child blocks of `claimRender`. -/
def claimBlock (lvl : Nat) (kv : String × PyVal) : List String :=
  match kv with
  | (_, PyVal.files _) => []
  | (k, PyVal.dict d) => [hashes lvl ++ " " ++ k, "", claimRender d (lvl + 1), ""]

/-- Title extraction as literally described by the specification: the first
line whose stripped form begins with `'#'`, with the leading run of `'#'`
characters and the surrounding whitespace removed; the stem when no such line
exists. -/
def specTitle (lines : List String) (stem : String) : String :=
  match lines.find? (fun l => pyStartsWith (pyStrip l) "#") with
  | some l => pyStrip ⟨(pyStrip l).data.dropWhile (· == '#')⟩
  | none => stem

/-- Collapsing each maximal whitespace run to a single `'-'`, written as the
specification describes it (run at a time), to be compared with the scanning
implementation `collapseWs`. -/
def collapseRuns : List Char → List Char
  | [] => []
  | c :: cs =>
    if c.isWhitespace then '-' :: collapseRuns (cs.dropWhile Char.isWhitespace)
    else c :: collapseRuns cs
termination_by l => l.length
decreasing_by
  · have h := (@List.dropWhile_sublist Char cs Char.isWhitespace).length_le
    simp
    omega
  · simp

/-- Anchor derivation as the claim words it: collapse each whitespace run to a
single separator character, and lowercase. -/
def anchorSpec (text : String) : String :=
  pyLower ⟨collapseRuns text.data⟩

/-- A directory entry that the builder turns into a document: a file with the
`.md` suffix whose name is not in `IGNORE_FILES`. -/
def isQualFile : FSEntry → Bool
  | .file n _ => hasMdSuffix n && !IGNORE_FILES.contains n
  | .dir _ _ => false

/-- The file names that contribute document links, in listing order. -/
def qualFileNames (es : List FSEntry) : List String :=
  (es.filter isQualFile).map FSEntry.name

/-- The document tuple contributed by one qualifying entry.  (The `none` and
directory cases are never hit on a run that succeeded.) -/
def entryDoc (pfx : String) : FSEntry → String × String
  | .file n (some lines) => (extract_title_from_md lines (pyStem n), pfx ++ "/" ++ n)
  | .file n none => ("", pfx ++ "/" ++ n)
  | .dir n _ => ("", pfx ++ "/" ++ n)

/-- The document tuples contributed by a list of entries, in listing order. -/
def docsOfEntries (pfx : String) (es : List FSEntry) : List (String × String) :=
  (es.filter isQualFile).map (entryDoc pfx)

/-- An entry list on which the scan raises: a qualifying document that cannot
be decoded, a non-excluded directory whose listing fails, or such a failure
deeper inside a non-excluded directory. -/
def badList : List FSEntry → Bool
  | [] => false
  | .file n c :: rest =>
      (hasMdSuffix n && !IGNORE_FILES.contains n && c.isNone) || badList rest
  | .dir n none :: rest => (!IGNORE_DIRS.contains n) || badList rest
  | .dir n (some es) :: rest =>
      ((!IGNORE_DIRS.contains n) && badList es) || badList rest
termination_by l => sizeOf l
decreasing_by
  all_goals simp
  all_goals omega

/-- Whether one entry makes the scan raise, as `badList` checks it. -/
def entryBad (e : FSEntry) : Bool :=
  match e with
  | .file n c => hasMdSuffix n && !IGNORE_FILES.contains n && c.isNone
  | .dir n none => !IGNORE_DIRS.contains n
  | .dir n (some es) => !IGNORE_DIRS.contains n && badList es

/-- A root listing on which the run raises a traversal or decode error: the
root listing itself fails, or some topic directory's subtree does. -/
def rootBad (rootListing : Option (List FSEntry)) : Bool :=
  match rootListing with
  | none => true
  | some items => items.any (fun e =>
      match e with
      | .dir n none => !IGNORE_DIRS.contains n
      | .dir n (some es) => (!IGNORE_DIRS.contains n) && badList es
      | .file _ _ => false)

/-- No key anywhere in the tree names an excluded directory. -/
def noExcludedKeys : PyTree → Bool
  | [] => true
  | (k, v) :: rest =>
      (if k = "__files__" then true else !IGNORE_DIRS.contains k)
        && (match v with | .files _ => true | .dict d => noExcludedKeys d)
        && noExcludedKeys rest
termination_by t => sizeOf t
decreasing_by
  all_goals simp
  all_goals omega

/-- Exception-propagating sequencing (the shape of `match` used by the
renderer), used to state unfolding lemmas without `match` binders. -/
def exceptCase {α β : Type} (x : Except PyErr α) (f : α → Except PyErr β) : Except PyErr β :=
  match x with
  | .error e => .error e
  | .ok a => f a

/-- The per-value part of `noExcludedKeys`. -/
def valOK : PyVal → Bool
  | .files _ => true
  | .dict d => noExcludedKeys d

/-! ## Helper lemmas -/

theorem dropWhile_dropWhile {α} (p : α → Bool) (l : List α) :
    (l.dropWhile p).dropWhile p = l.dropWhile p := by
  induction l with
  | nil => rfl
  | cons c cs ih =>
    by_cases h : p c
    · simp [List.dropWhile, h, ih]
    · simp [List.dropWhile, h]

theorem pyStrip_of_dropWhile (xs : List Char) :
    pyStrip ⟨xs.dropWhile Char.isWhitespace⟩ = pyStrip ⟨xs⟩ := by
  simp [pyStrip, dropWhile_dropWhile]

theorem dictGet?_dictInsert_self {β : Type} (t : List (String × β)) (k : String) (v : β) :
    dictGet? (dictInsert t k v) k = some v := by
  induction t with
  | nil => simp [dictInsert, dictGet?]
  | cons kv rest ih =>
    by_cases h : kv.1 = k
    · simp [dictInsert, dictGet?, h]
    · simp [dictInsert, dictGet?, h, ih]

theorem dictGet?_dictInsert_ne {β : Type} (t : List (String × β)) (k k' : String) (v : β)
    (h : k' ≠ k) : dictGet? (dictInsert t k v) k' = dictGet? t k' := by
  induction t with
  | nil => simp [dictInsert, dictGet?, Ne.symm h]
  | cons kv rest ih =>
    by_cases hk : kv.1 = k
    · have hne : kv.1 ≠ k' := by rw [hk]; exact Ne.symm h
      simp [dictInsert, dictGet?, hk, hne, Ne.symm h]
    · by_cases hk' : kv.1 = k'
      · simp [dictInsert, dictGet?, hk, hk', h]
      · simp [dictInsert, dictGet?, hk, hk', ih]

theorem dictGet?_mem {β : Type} {t : List (String × β)} {k : String} {v : β}
    (h : dictGet? t k = some v) : (k, v) ∈ t := by
  induction t with
  | nil => simp [dictGet?] at h
  | cons kv rest ih =>
    rcases kv with ⟨k', v'⟩
    by_cases hk : k' = k
    · subst hk
      simp [dictGet?] at h
      simp [h]
    · simp [dictGet?, hk] at h
      exact List.mem_cons_of_mem _ (ih h)

theorem lexLe_cons_iff (a b : Char) (as bs : List Char) :
    lexLe (a :: as) (b :: bs) = true ↔ (a < b ∨ (a = b ∧ lexLe as bs = true)) := by
  by_cases h : a < b
  · simp [lexLe, h]
  · by_cases h2 : a = b
    · simp [lexLe, h, h2]
    · simp [lexLe, h, h2]

theorem lexLe_total : ∀ as bs : List Char, lexLe as bs = true ∨ lexLe bs as = true := by
  intro as
  induction as with
  | nil => intro bs; left; rfl
  | cons a as ih =>
    intro bs
    cases bs with
    | nil => right; rfl
    | cons b bs =>
      rcases lt_trichotomy a b with h | h | h
      · left; rw [lexLe_cons_iff]; exact Or.inl h
      · subst h
        rcases ih bs with h2 | h2
        · left; rw [lexLe_cons_iff]; exact Or.inr ⟨rfl, h2⟩
        · right; rw [lexLe_cons_iff]; exact Or.inr ⟨rfl, h2⟩
      · right; rw [lexLe_cons_iff]; exact Or.inl h

theorem lexLe_trans :
    ∀ as bs cs : List Char, lexLe as bs = true → lexLe bs cs = true → lexLe as cs = true := by
  intro as
  induction as with
  | nil => intro bs cs _ _; rfl
  | cons a as ih =>
    intro bs cs h1 h2
    cases bs with
    | nil => simp [lexLe] at h1
    | cons b bs =>
      cases cs with
      | nil => simp [lexLe] at h2
      | cons c cs =>
        rw [lexLe_cons_iff] at h1 h2 ⊢
        rcases h1 with h1 | ⟨hab, h1⟩
        · rcases h2 with h2 | ⟨hbc, h2⟩
          · exact Or.inl (lt_trans h1 h2)
          · subst hbc; exact Or.inl h1
        · subst hab
          rcases h2 with h2 | ⟨hbc, h2⟩
          · exact Or.inl h2
          · subst hbc; exact Or.inr ⟨rfl, ih bs cs h1 h2⟩

theorem entryKeyLe_total : ∀ a b : FSEntry, entryKeyLe a b ∨ entryKeyLe b a :=
  fun x y => lexLe_total (pyLower x.name).data (pyLower y.name).data

theorem entryKeyLe_trans :
    ∀ a b c : FSEntry, entryKeyLe a b → entryKeyLe b c → entryKeyLe a c :=
  fun _ _ _ h1 h2 => lexLe_trans _ _ _ h1 h2

theorem pairKeyLe_total : ∀ a b : String × PyVal, pairKeyLe a b ∨ pairKeyLe b a :=
  fun x y => lexLe_total (pyLower x.1).data (pyLower y.1).data

theorem pairKeyLe_trans :
    ∀ a b c : String × PyVal, pairKeyLe a b → pairKeyLe b c → pairKeyLe a c :=
  fun _ _ _ h1 h2 => lexLe_trans _ _ _ h1 h2

theorem sortEntries_sorted (es : List FSEntry) : List.Sorted entryKeyLe (sortEntries es) :=
  @List.sorted_insertionSort FSEntry entryKeyLe _ ⟨entryKeyLe_total⟩
    ⟨entryKeyLe_trans⟩ es

theorem subdirsOf_sorted (t : PyTree) : List.Sorted pairKeyLe (subdirsOf t) :=
  @List.sorted_insertionSort (String × PyVal) pairKeyLe _ ⟨pairKeyLe_total⟩
    ⟨pairKeyLe_trans⟩ _

theorem seqExcept_map_ok {α : Type} (l : List α) (f : α → Except PyErr (List String))
    (g : α → List String) (h : ∀ x ∈ l, f x = .ok (g x)) :
    seqExcept (l.map f) = .ok ((l.map g).flatten) := by
  induction l with
  | nil => rfl
  | cons x xs ih =>
    have hx := h x (by simp)
    have hxs := ih (fun y hy => h y (by simp [hy]))
    simp [seqExcept, hx, hxs, Except.map]

/-- One unfolding of `render_subtree`, with the `attach` bookkeeping of the
termination argument removed. -/
theorem render_subtree_unfold (tree : PyTree) (lvl : Nat) (parent : String) :
    render_subtree tree lvl parent =
      match fileLines tree with
      | .error e => .error e
      | .ok fl =>
        match seqExcept ((subdirsOf tree).map (subdirBlock lvl parent)) with
        | .error e => .error e
        | .ok bls => .ok (String.intercalate "\n" (fl ++ bls)) := by
  rw [render_subtree]
  have h : ((subdirsOf tree).attach.map (fun x =>
      match x with
      | ⟨(_, PyVal.files _), _⟩ => Except.error PyErr.attributeError
      | ⟨(k, PyVal.dict d), _⟩ =>
          (render_subtree d (lvl + 1) (parent ++ "/" ++ k)).map
            (fun s => [hashes lvl ++ " " ++ k, "", s, ""]))) =
      ((subdirsOf tree).map (subdirBlock lvl parent)) := by
    calc ((subdirsOf tree).attach.map (fun x =>
        match x with
        | ⟨(_, PyVal.files _), _⟩ => Except.error PyErr.attributeError
        | ⟨(k, PyVal.dict d), _⟩ =>
            (render_subtree d (lvl + 1) (parent ++ "/" ++ k)).map
              (fun s => [hashes lvl ++ " " ++ k, "", s, ""])))
        = (subdirsOf tree).attach.map (fun x => subdirBlock lvl parent x.1) := by
          congr 1
          funext x
          rcases x with ⟨⟨k, v⟩, hx⟩
          cases v <;> rfl
      _ = (subdirsOf tree).map (subdirBlock lvl parent) := List.attach_map_coe _ _
  rw [h]

/-- One unfolding of `claimRender`, with the `attach` bookkeeping of the
termination argument removed. -/
theorem claimRender_unfold (t : PyTree) (lvl : Nat) :
    claimRender t lvl =
      String.intercalate "\n"
        ((docsOf t).map linkLine
          ++ (if docsOf t = [] then [] else [""])
          ++ ((subdirsOf t).map (claimBlock lvl)).flatten) := by
  rw [claimRender]
  have h : ((subdirsOf t).attach.map (fun x =>
      match x with
      | ⟨(_, PyVal.files _), _⟩ => []
      | ⟨(k, PyVal.dict d), _⟩ => [hashes lvl ++ " " ++ k, "", claimRender d (lvl + 1), ""])) =
      ((subdirsOf t).map (claimBlock lvl)) := by
    calc ((subdirsOf t).attach.map (fun x =>
        match x with
        | ⟨(_, PyVal.files _), _⟩ => ([] : List String)
        | ⟨(k, PyVal.dict d), _⟩ => [hashes lvl ++ " " ++ k, "", claimRender d (lvl + 1), ""]))
        = (subdirsOf t).attach.map (fun x => claimBlock lvl x.1) := by
          congr 1
          funext x
          rcases x with ⟨⟨k, v⟩, hx⟩
          cases v <;> rfl
      _ = (subdirsOf t).map (claimBlock lvl) := List.attach_map_coe _ _
  rw [h]

/-! ## C2 — title extraction -/

theorem extract_eq_specTitle (lines : List String) (stem : String) :
    extract_title_from_md lines stem = specTitle lines stem := by
  induction lines with
  | nil => rfl
  | cons l ls ih =>
    by_cases h : pyStartsWith (pyStrip l) "#"
    · simp [extract_title_from_md, specTitle, List.find?_cons, h]
      rw [stripHeadingMarkers]
      exact pyStrip_of_dropWhile _
    · have hstep : extract_title_from_md (l :: ls) stem = extract_title_from_md ls stem := by
        simp [extract_title_from_md, h]
      rw [hstep, ih]
      simp [specTitle, List.find?_cons, h]

/-- C2: the extractor returns the content of the first line whose stripped
form begins with `'#'`, with the leading `'#'` run and surrounding whitespace
removed (`specTitle` is that description, written with `List.find?`); when no
line qualifies it returns the file's base name with its `.md` extension
removed (`pyStem`). -/
theorem extract_title_spec :
    (∀ lines stem, extract_title_from_md lines stem = specTitle lines stem) ∧
    (∀ base : String, base ≠ "" → pyStem (base ++ ".md") = base) := by
  constructor
  · exact extract_eq_specTitle
  · intro base hbase
    have hdata : (base ++ ".md").data = base.data ++ ['.', 'm', 'd'] := rfl
    have hlen : base.data.length ≠ 0 := by
      intro h0
      exact hbase (String.ext (List.eq_nil_of_length_eq_zero h0))
    have hsuffix : hasMdSuffix (base ++ ".md") = true := by
      simp only [hasMdSuffix, hdata, Bool.and_eq_true, decide_eq_true_eq]
      constructor
      · exact List.isSuffixOf_iff_suffix.mpr (List.suffix_append _ _)
      · simp only [List.length_append, List.length_cons, List.length_nil]
        omega
    simp only [pyStem, hsuffix, if_true, hdata]
    have htake : (base.data ++ ['.', 'm', 'd']).take
        ((base.data ++ ['.', 'm', 'd']).length - 3) = base.data := by
      have h3 : (base.data ++ ['.', 'm', 'd']).length - 3 = base.data.length := by
        simp only [List.length_append, List.length_cons, List.length_nil]
        omega
      rw [h3, List.take_left]
    rw [htake]

theorem extract_title_spec_witness :
    ("intro" : String) ≠ "" ∧ pyStem ("intro" ++ ".md") = "intro" :=
  ⟨by decide, extract_title_spec.2 "intro" (by decide)⟩

/-! ## C10 — a heading line with no content after the markers

The claim says the extractor returns the empty string for every first
heading-candidate line made only of `'#'` characters and whitespace.  That is
not what the code does on `"# #"`: `re.sub(r'^#+\s*', '', "# #")` removes only
the first marker run and the whitespace after it, leaving `"#"`.  The claim
holds for lines whose stripped form is a single run of `'#'` characters. -/

/-- C10 (counterexample): the line `"# #"` consists solely of heading markers
and whitespace, yet the extracted title is `"#"`, not the empty string. -/
theorem extract_title_hash_ws_hash :
    ("# #".data.all (fun c => c == '#' || c.isWhitespace) = true) ∧
    extract_title_from_md ["# #"] "fallback" = "#" ∧
    extract_title_from_md ["# #"] "fallback" ≠ "" :=
  ⟨by decide, by decide, by decide⟩

/-- C10 (amended): when the first line whose stripped form begins with `'#'`
strips to a pure run of `'#'` characters (for example a line that is exactly
`"#"`), the extractor returns the empty string rather than the fallback stem,
and the rendered link for a document with an empty title has an empty label. -/
theorem extract_title_marker_only (pre : List String) (l : String) (post : List String)
    (stem : String)
    (hpre : ∀ x ∈ pre, pyStartsWith (pyStrip x) "#" = false)
    (hne : (pyStrip l).data ≠ [])
    (hall : (pyStrip l).data.all (fun c => c == '#') = true) :
    extract_title_from_md (pre ++ l :: post) stem = "" ∧
    render_subtree [("__files__", PyVal.files [("", "topic/a.md")])] 4 "topic" =
      .ok "- [](topic/a.md)\n" := by
  constructor
  · induction pre with
    | nil =>
      have hstart : pyStartsWith (pyStrip l) "#" = true := by
        rcases hd : (pyStrip l).data with _ | ⟨c, r⟩
        · exact absurd hd hne
        · have hc : c = '#' := by
            have hmem := List.all_eq_true.mp hall c (by rw [hd]; exact List.mem_cons_self _ _)
            simpa using hmem
          simp [pyStartsWith, List.isPrefixOf, hd, hc]
      simp only [List.nil_append, extract_title_from_md, hstart, if_true]
      have hdrop : (pyStrip l).data.dropWhile (· == '#') = [] :=
        List.dropWhile_eq_nil_iff.mpr (fun x hx => List.all_eq_true.mp hall x hx)
      rw [stripHeadingMarkers, hdrop]
      rfl
    | cons p ps ih =>
      have hp := hpre p (List.mem_cons_self _ _)
      simp only [List.cons_append, extract_title_from_md, hp, Bool.false_eq_true, if_false]
      exact ih (fun x hx => hpre x (List.mem_cons_of_mem _ hx))
  · rw [render_subtree_unfold]
    simp [fileLines, subdirsOf, dictGet?, seqExcept, String.intercalate]
    rfl

theorem extract_title_marker_only_witness :
    (∀ x ∈ ([] : List String), pyStartsWith (pyStrip x) "#" = false) ∧
    (pyStrip "  ## ").data ≠ [] ∧
    ((pyStrip "  ## ").data.all (fun c => c == '#') = true) ∧
    extract_title_from_md ["  ## "] "note" = "" :=
  ⟨by simp, by decide, by decide,
    (extract_title_marker_only [] "  ## " [] "note" (by simp) (by decide) (by decide)).1⟩

/-! ## C7 — anchor derivation -/

theorem toNat_ofNat_valid (n : Nat) (h : n.isValidChar) : (Char.ofNat n).toNat = n := by
  rw [Char.ofNat, dif_pos h]
  rfl

theorem char_eq_iff_toNat (c d : Char) : c = d ↔ c.toNat = d.toNat :=
  ⟨congrArg _, fun h => Char.ext (UInt32.toNat.inj h)⟩

theorem isWhitespace_iff_toNat (c : Char) :
    c.isWhitespace = true ↔ (c.toNat = 32 ∨ c.toNat = 9 ∨ c.toNat = 13 ∨ c.toNat = 10) := by
  have h1 : (c = ' ') ↔ c.toNat = 32 := char_eq_iff_toNat c ' '
  have h2 : (c = '\t') ↔ c.toNat = 9 := char_eq_iff_toNat c '\t'
  have h3 : (c = '\r') ↔ c.toNat = 13 := char_eq_iff_toNat c '\r'
  have h4 : (c = '\n') ↔ c.toNat = 10 := char_eq_iff_toNat c '\n'
  simp [Char.isWhitespace, h1, h2, h3, h4]
  tauto

theorem isWhitespace_pyCharLower (c : Char) :
    (pyCharLower c).isWhitespace = c.isWhitespace := by
  by_cases h : 65 ≤ c.toNat ∧ c.toNat ≤ 90
  · have hvalid : Nat.isValidChar (c.toNat + 32) := Or.inl (by omega)
    have htn : (Char.ofNat (c.toNat + 32)).toNat = c.toNat + 32 :=
      toNat_ofNat_valid _ hvalid
    simp only [pyCharLower, if_pos h]
    cases hw : c.isWhitespace with
    | true =>
      have := (isWhitespace_iff_toNat c).mp hw
      omega
    | false =>
      cases hw2 : (Char.ofNat (c.toNat + 32)).isWhitespace with
      | true =>
        have := (isWhitespace_iff_toNat _).mp hw2
        rw [htn] at this
        omega
      | false => rfl
  · simp [pyCharLower, if_neg h]

theorem collapseWs_map_lower (b : Bool) (l : List Char) :
    collapseWs b (l.map pyCharLower) = (collapseWs b l).map pyCharLower := by
  induction l generalizing b with
  | nil => rfl
  | cons c cs ih =>
    by_cases hw : c.isWhitespace = true
    · have hw' : (pyCharLower c).isWhitespace = true := by
        rw [isWhitespace_pyCharLower]; exact hw
      cases b with
      | true => simp [collapseWs, hw, hw', ih]
      | false =>
        have hd : pyCharLower '-' = '-' := by decide
        simp [collapseWs, hw, hw', ih, hd]
    · have hw' : ¬(pyCharLower c).isWhitespace = true := by
        rw [isWhitespace_pyCharLower]; exact hw
      simp [collapseWs, hw, hw', ih]

theorem collapseWs_true_eq (cs : List Char) :
    collapseWs true cs = collapseWs false (cs.dropWhile Char.isWhitespace) := by
  induction cs with
  | nil => rfl
  | cons c cs ih =>
    by_cases hw : c.isWhitespace = true
    · simp [collapseWs, hw, List.dropWhile, ih]
    · simp [collapseWs, hw, List.dropWhile]

theorem collapseWs_eq_collapseRuns (l : List Char) :
    collapseWs false l = collapseRuns l := by
  induction l using collapseRuns.induct with
  | case1 => rw [collapseRuns]; rfl
  | case2 c cs hw ih =>
    rw [collapseRuns]
    simp [collapseWs, hw, collapseWs_true_eq, ih]
  | case3 c cs hw ih =>
    rw [collapseRuns]
    simp [collapseWs, hw, ih]

/-- C7: the anchor of a topic is obtained by collapsing each whitespace run to
a single `'-'` and lowercasing (in either order; `anchorSpec` collapses first,
the code lowercases first), with no other normalization — punctuation like
`'+'`, `'&'` or `'!'` is kept — and each Categories line links to exactly this
anchor. -/
theorem make_anchor_spec :
    (∀ t : String, make_anchor t = anchorSpec t) ∧
    (∀ ns : List String,
      categoriesGo ns = ns.map (fun n => "- [" ++ n ++ "](#" ++ make_anchor n ++ ")")) ∧
    make_anchor "C++ & Notes!" = "c++-&-notes!" := by
  refine ⟨?_, ?_, by decide⟩
  · intro t
    show (⟨collapseWs false (pyLower t).data⟩ : String) = pyLower ⟨collapseRuns t.data⟩
    have h1 : (pyLower t).data = t.data.map pyCharLower := rfl
    rw [h1, collapseWs_map_lower, collapseWs_eq_collapseRuns]
    rfl
  · intro ns
    induction ns with
    | nil => rfl
    | cons n ns ih => simp [categoriesGo, ih]

/-! ## C8 — determinism of rendering and assembly -/

/-- C8: rendering and assembly are pure functions of the built hierarchy:
equal hierarchies yield byte-identical rendered text and byte-identical
assembled documents, and two runs of the whole pipeline on an unchanged input
tree produce byte-identical output. -/
theorem render_deterministic :
    (∀ (t₁ t₂ : PyTree) (lvl : Nat) (p : String), t₁ = t₂ →
      render_subtree t₁ lvl p = render_subtree t₂ lvl p) ∧
    (∀ topics₁ topics₂ : List (String × PyTree), topics₁ = topics₂ →
      generate_readme topics₁ = generate_readme topics₂) ∧
    (∀ root₁ root₂ : Option (List FSEntry), root₁ = root₂ →
      mainRun root₁ = mainRun root₂ ∧ mainWrites root₁ = mainWrites root₂) :=
  ⟨fun _ _ _ _ h => by rw [h], fun _ _ h => by rw [h],
    fun _ _ h => by rw [h]; exact ⟨rfl, rfl⟩⟩

theorem render_deterministic_witness :
    ([("__files__", PyVal.files [])] : PyTree) = [("__files__", PyVal.files [])] ∧
    render_subtree [("__files__", PyVal.files [])] 4 "t" =
      render_subtree [("__files__", PyVal.files [])] 4 "t" :=
  ⟨rfl, render_deterministic.1 _ _ 4 "t" rfl⟩

/-! ## C6 — the reserved `"__files__"` key collides with a real directory

The builder stores the document list under the dictionary key `"__files__"`
and subdirectories under their own names in the *same* dictionary.  A real
subdirectory named `__files__` is therefore inserted over the document list:
the node's document list is destroyed, not kept structurally separate.  If a
document is processed afterwards, `tree["__files__"].append` raises
`AttributeError`; otherwise the corrupted tree reaches the renderer, whose
`for (title, rel_path) in files` raises `ValueError`. -/

/-- C6 (the code violates the claim): a topic containing a real subdirectory
named `__files__` overwrites the node's document list with that child's dict
(first conjunct); with a document alongside, the build crashes (second
conjunct); and rendering the corrupted node crashes (third conjunct). -/
theorem files_marker_collision :
    build_directory_tree "t" (some [FSEntry.dir "__files__" (some [])]) =
      .ok [("__files__", PyVal.dict [("__files__", PyVal.files [])])] ∧
    build_directory_tree "t"
        (some [FSEntry.dir "__files__" (some []), FSEntry.file "a.md" (some [])]) =
      .error .attributeError ∧
    render_subtree [("__files__", PyVal.dict [("__files__", PyVal.files [])])] 4 "t" =
      .error .valueError := by
  refine ⟨?_, ?_, ?_⟩
  · simp [build_directory_tree, buildGo, sortEntries, List.insertionSort, IGNORE_DIRS,
      dictInsert]
  · simp [build_directory_tree, buildGo, sortEntries, List.insertionSort, List.orderedInsert,
      IGNORE_DIRS, IGNORE_FILES, hasMdSuffix, entryKeyLe, keyLe, pyLower, pyCharLower, lexLe,
      FSEntry.name, extractTitle, dictInsert, dictGet?]
  · rw [render_subtree_unfold]
    simp [fileLines, dictGet?]

/-! ## C5 — empty directories are still inserted -/

/-- C5: a non-excluded subdirectory whose recursive build succeeded is always
inserted into the parent's dictionary, whatever its contents (first conjunct, in
particular for an empty result); an empty folder produces an empty node that is
inserted (second conjunct); and a topic with zero files and zero subdirectories
still gets its Categories link and its (empty-bodied) Articles heading (third
conjunct). -/
theorem empty_dirs_inserted :
    (∀ (pfx : String) (tree : PyTree) (n : String) (listing : Option (List FSEntry))
        (rest : List FSEntry) (subtree : PyTree),
      n ∉ IGNORE_DIRS →
      build_directory_tree (pfx ++ "/" ++ n) listing = .ok subtree →
      buildGo pfx tree (FSEntry.dir n listing :: rest) =
        buildGo pfx (dictInsert tree n (PyVal.dict subtree)) rest) ∧
    build_directory_tree "t" (some [FSEntry.dir "empty" (some [])]) =
      .ok [("__files__", PyVal.files []), ("empty", PyVal.dict [("__files__", PyVal.files [])])] ∧
    mainRun (some [FSEntry.dir "mytopic" (some [])]) =
      .ok (readmeText ["- [mytopic](#mytopic)"] ["### mytopic", ""]) := by
  refine ⟨?_, ?_, ?_⟩
  · intro pfx tree n listing rest subtree hn hbuild
    cases listing with
    | none => simp [build_directory_tree] at hbuild
    | some sub =>
      simp only [build_directory_tree] at hbuild
      simp [buildGo, hn, hbuild]
  · simp [build_directory_tree, buildGo, sortEntries, List.insertionSort, IGNORE_DIRS,
      dictInsert]
  · have hrender : render_subtree [("__files__", PyVal.files [])] 4 "mytopic" = .ok "" := by
      rw [render_subtree_unfold]
      simp [fileLines, subdirsOf, dictGet?, seqExcept, String.intercalate]
    simp [mainRun, topicDirsOf, List.insertionSort, IGNORE_DIRS, buildTopicsGo,
      build_directory_tree, buildGo, sortEntries, dictInsert, generate_readme, sortNames,
      articlesGo, dictGet?, hrender, categoriesGo, make_anchor, pyLower, pyCharLower,
      collapseWs, Except.map]

theorem empty_dirs_inserted_witness :
    ("empty" : String) ∉ IGNORE_DIRS ∧
    build_directory_tree ("t" ++ "/" ++ "empty") (some []) =
      .ok [("__files__", PyVal.files [])] ∧
    buildGo "t" [("__files__", PyVal.files [])] [FSEntry.dir "empty" (some [])] =
      buildGo "t"
        (dictInsert [("__files__", PyVal.files [])] "empty"
          (PyVal.dict [("__files__", PyVal.files [])])) [] := by
  refine ⟨by decide, by simp [build_directory_tree, buildGo, sortEntries, List.insertionSort], ?_⟩
  exact empty_dirs_inserted.1 "t" _ "empty" (some []) [] _ (by decide)
    (by simp [build_directory_tree, buildGo, sortEntries, List.insertionSort])

/-! ## C4 — exclusions never contribute to the output -/

theorem noExcludedKeys_cons (k : String) (v : PyVal) (rest : PyTree) :
    noExcludedKeys ((k, v) :: rest) =
      ((if k = "__files__" then true else !IGNORE_DIRS.contains k)
        && valOK v && noExcludedKeys rest) := by
  rw [noExcludedKeys.eq_def]
  cases v <;> simp [valOK]

theorem entryCondOK_iff (k : String) :
    ((if k = "__files__" then true else !IGNORE_DIRS.contains k) = true) ↔
      (k = "__files__" ∨ k ∉ IGNORE_DIRS) := by
  by_cases hf : k = "__files__" <;> simp [hf]

theorem noExcludedKeys_dictInsert (t : PyTree) (k : String) (v : PyVal)
    (ht : noExcludedKeys t = true)
    (hk : k = "__files__" ∨ k ∉ IGNORE_DIRS)
    (hv : valOK v = true) :
    noExcludedKeys (dictInsert t k v) = true := by
  induction t with
  | nil =>
    simp only [dictInsert]
    rw [noExcludedKeys_cons]
    rcases hk with h | h <;> simp [h, hv, noExcludedKeys]
  | cons kv rest ih =>
    rcases kv with ⟨k', v'⟩
    rw [noExcludedKeys_cons] at ht
    simp only [Bool.and_eq_true] at ht
    by_cases hkk : k' = k
    · simp only [dictInsert, if_pos hkk]
      rw [noExcludedKeys_cons]
      subst hkk
      rcases hk with h | h <;> simp [h, hv, ht.2]
    · simp only [dictInsert, if_neg hkk]
      rw [noExcludedKeys_cons]
      rcases (entryCondOK_iff k').mp ht.1.1 with h | h <;>
        simp [h, ht.1.2, ih ht.2]

theorem noExcludedKeys_init : noExcludedKeys [("__files__", PyVal.files [])] = true := by
  rw [noExcludedKeys_cons]
  simp [valOK, noExcludedKeys]

theorem buildGo_preserves_noExcluded :
    ∀ (fuel : Nat) (es : List FSEntry), sizeOf es ≤ fuel →
    ∀ (pfx : String) (tree t : PyTree),
      noExcludedKeys tree = true → buildGo pfx tree es = .ok t →
      noExcludedKeys t = true := by
  intro fuel
  induction fuel with
  | zero =>
    intro es h
    exfalso
    cases es with
    | nil => simp at h
    | cons e rest => simp at h
  | succ n ih =>
    intro es hN pfx tree t ht hb
    cases es with
    | nil =>
      simp only [buildGo, Except.ok.injEq] at hb
      rw [← hb]
      exact ht
    | cons e rest =>
      have hrest : sizeOf rest ≤ n := by
        simp at hN
        omega
      cases e with
      | dir dn dl =>
        cases dl with
        | none =>
          by_cases hd : dn ∈ IGNORE_DIRS
          · rw [buildGo.eq_2, if_pos hd] at hb
            exact ih rest hrest pfx tree t ht hb
          · rw [buildGo.eq_2, if_neg hd] at hb
            exact absurd hb (by simp)
        | some sub =>
          by_cases hd : dn ∈ IGNORE_DIRS
          · rw [buildGo.eq_3, if_pos hd] at hb
            exact ih rest hrest pfx tree t ht hb
          · rw [buildGo.eq_3, if_neg hd] at hb
            rcases hrec : buildGo (pfx ++ "/" ++ dn) [("__files__", PyVal.files [])]
                (sortEntries sub) with e' | subtree
            · rw [hrec] at hb
              simp at hb
            · rw [hrec] at hb
              have hsub : sizeOf (sortEntries sub) ≤ n := by
                rw [sizeOf_sortEntries]
                simp at hN
                omega
              have hsubOK : noExcludedKeys subtree = true :=
                ih _ hsub _ _ _ noExcludedKeys_init hrec
              have hins : noExcludedKeys (dictInsert tree dn (PyVal.dict subtree)) = true :=
                noExcludedKeys_dictInsert _ _ _ ht (Or.inr hd) (by simp [valOK, hsubOK])
              exact ih rest hrest pfx _ t hins hb
      | file fn fc =>
        by_cases hq : hasMdSuffix fn = true ∧ fn ∉ IGNORE_FILES
        · cases fc with
          | none => simp [buildGo, hq.1, hq.2, extractTitle] at hb
          | some lines =>
            simp only [buildGo, extractTitle] at hb
            rw [if_pos] at hb
            · rcases hget : dictGet? tree "__files__" with _ | v
              · rw [hget] at hb
                simp at hb
              · rw [hget] at hb
                cases v with
                | dict d => simp at hb
                | files fl =>
                  simp only at hb
                  have hins : noExcludedKeys
                      (dictInsert tree "__files__"
                        (PyVal.files (fl ++ [(extract_title_from_md lines (pyStem fn),
                          pfx ++ "/" ++ fn)]))) = true :=
                    noExcludedKeys_dictInsert _ _ _ ht (Or.inl rfl) (by simp [valOK])
                  exact ih rest hrest pfx _ t hins hb
            · simpa using hq
        · have hcond : ¬(hasMdSuffix fn && !IGNORE_FILES.contains fn) = true := by
            simpa using hq
          simp only [buildGo] at hb
          rw [if_neg] at hb
          · exact ih rest hrest pfx tree t ht hb
          · simpa using hq

/-- C4: excluded entries never contribute: a directory whose name is in
`IGNORE_DIRS` is skipped whole (first conjunct — whatever its listing, it is
not recursed into and nothing of it is represented); a file named `README.md`
is skipped whole (second conjunct — whatever its content, no document is
created); top-level topics are never excluded names (third conjunct); and no
tree the builder returns contains an excluded directory name as a key at any
depth (fourth conjunct), so no heading or recursive content ever shows an
excluded name. -/
theorem excluded_never_rendered :
    (∀ (pfx : String) (tree : PyTree) (n : String) (l : Option (List FSEntry))
        (rest : List FSEntry), n ∈ IGNORE_DIRS →
      buildGo pfx tree (FSEntry.dir n l :: rest) = buildGo pfx tree rest) ∧
    (∀ (pfx : String) (tree : PyTree) (c : Option (List String)) (rest : List FSEntry),
      buildGo pfx tree (FSEntry.file "README.md" c :: rest) = buildGo pfx tree rest) ∧
    (∀ (items : List FSEntry) (e : FSEntry), e ∈ topicDirsOf items →
      ∃ n l, e = FSEntry.dir n l ∧ n ∉ IGNORE_DIRS) ∧
    (∀ (pfx : String) (listing : Option (List FSEntry)) (t : PyTree),
      build_directory_tree pfx listing = .ok t → noExcludedKeys t = true) := by
  refine ⟨?_, ?_, ?_, ?_⟩
  · intro pfx tree n l rest h
    cases l with
    | none => rw [buildGo.eq_2, if_pos h]
    | some sub => rw [buildGo.eq_3, if_pos h]
  · intro pfx tree c rest
    rw [buildGo.eq_4]
    rw [if_neg]
    simp [hasMdSuffix, IGNORE_FILES]
  · intro items e he
    have h1 : e ∈ items.filter (fun e =>
        match e with
        | .dir n _ => !IGNORE_DIRS.contains n
        | .file _ _ => false) := (List.mem_insertionSort entryKeyLe).mp he
    have h2 := List.of_mem_filter h1
    cases e with
    | file fn fc => simp at h2
    | dir dn dl =>
      refine ⟨dn, dl, rfl, ?_⟩
      simpa using h2
  · intro pfx listing t hb
    cases listing with
    | none => simp [build_directory_tree] at hb
    | some es =>
      simp only [build_directory_tree] at hb
      exact buildGo_preserves_noExcluded (sizeOf (sortEntries es)) _ le_rfl _ _ _
        noExcludedKeys_init hb

theorem excluded_never_rendered_witness :
    ("scripts" : String) ∈ IGNORE_DIRS ∧
    buildGo "t" [("__files__", PyVal.files [])]
        [FSEntry.dir "scripts" none, FSEntry.file "README.md" none] =
      buildGo "t" [("__files__", PyVal.files [])] [FSEntry.file "README.md" none] := by
  refine ⟨by decide, ?_⟩
  exact excluded_never_rendered.1 "t" _ "scripts" none _ (by decide)

/-! ## C9 — traversal and decode errors abort the run before any write -/

theorem badList_eq_any (l : List FSEntry) : badList l = l.any entryBad := by
  induction l with
  | nil => rw [badList.eq_1]; rfl
  | cons e rest ih =>
    cases e with
    | file n c => rw [badList.eq_2, List.any_cons]; rw [ih]; rfl
    | dir n dl =>
      cases dl with
      | none => rw [badList.eq_3, List.any_cons]; rw [ih]; rfl
      | some es => rw [badList.eq_4, List.any_cons]; rw [ih]; rfl

theorem badList_perm {l₁ l₂ : List FSEntry} (h : l₁.Perm l₂) : badList l₁ = badList l₂ := by
  rw [badList_eq_any, badList_eq_any, Bool.eq_iff_iff]
  simp only [List.any_eq_true]
  constructor
  · rintro ⟨x, hx, hpx⟩
    exact ⟨x, h.mem_iff.mp hx, hpx⟩
  · rintro ⟨x, hx, hpx⟩
    exact ⟨x, h.mem_iff.mpr hx, hpx⟩

theorem badList_sortEntries (es : List FSEntry) : badList (sortEntries es) = badList es :=
  badList_perm (List.perm_insertionSort entryKeyLe es)

theorem buildGo_error_of_bad :
    ∀ (fuel : Nat) (es : List FSEntry), sizeOf es ≤ fuel → badList es = true →
    ∀ (pfx : String) (tree : PyTree), ∃ e, buildGo pfx tree es = .error e := by
  intro fuel
  induction fuel with
  | zero =>
    intro es h
    exfalso
    cases es with
    | nil => simp at h
    | cons e rest => simp at h
  | succ n ih =>
    intro es hN hbad pfx tree
    cases es with
    | nil =>
      rw [badList.eq_1] at hbad
      exact absurd hbad (by simp)
    | cons e rest =>
      have hrest : sizeOf rest ≤ n := by
        simp at hN
        omega
      cases e with
      | file fn fc =>
        rw [badList.eq_2] at hbad
        by_cases hq : (hasMdSuffix fn && !IGNORE_FILES.contains fn) = true
        · cases fc with
          | none =>
            refine ⟨.decodeError, ?_⟩
            rw [buildGo.eq_4, if_pos hq]
            rfl
          | some lines =>
            rcases hget : dictGet? tree "__files__" with _ | v
            · refine ⟨.keyError, ?_⟩
              rw [buildGo.eq_4, if_pos hq]
              simp [extractTitle, hget]
            · cases v with
              | dict d =>
                refine ⟨.attributeError, ?_⟩
                rw [buildGo.eq_4, if_pos hq]
                simp [extractTitle, hget]
              | files fl =>
                have hr : badList rest = true := by
                  simp only [Bool.or_eq_true] at hbad
                  rcases hbad with hl | hr
                  · simp at hl
                  · exact hr
                obtain ⟨err, herr⟩ := ih rest hrest hr pfx
                  (dictInsert tree "__files__"
                    (PyVal.files (fl ++ [(extract_title_from_md lines (pyStem fn),
                      pfx ++ "/" ++ fn)])))
                refine ⟨err, ?_⟩
                rw [buildGo.eq_4, if_pos hq]
                simp [extractTitle, hget, herr]
        · have hr : badList rest = true := by
            simp only [Bool.or_eq_true] at hbad
            rcases hbad with hl | hr
            · exfalso
              apply hq
              simp only [Bool.and_eq_true] at hl ⊢
              exact ⟨hl.1.1, hl.1.2⟩
            · exact hr
          obtain ⟨err, herr⟩ := ih rest hrest hr pfx tree
          refine ⟨err, ?_⟩
          rw [buildGo.eq_4, if_neg]
          · exact herr
          · simpa using hq
      | dir dn dl =>
        cases dl with
        | none =>
          rw [badList.eq_3] at hbad
          by_cases hd : dn ∈ IGNORE_DIRS
          · have hr : badList rest = true := by
              simp only [Bool.or_eq_true] at hbad
              rcases hbad with hl | hr
              · simp [hd] at hl
              · exact hr
            obtain ⟨err, herr⟩ := ih rest hrest hr pfx tree
            refine ⟨err, ?_⟩
            rw [buildGo.eq_2, if_pos hd]
            exact herr
          · refine ⟨.listingError, ?_⟩
            rw [buildGo.eq_2, if_neg hd]
        | some sub =>
          rw [badList.eq_4] at hbad
          by_cases hd : dn ∈ IGNORE_DIRS
          · have hr : badList rest = true := by
              simp only [Bool.or_eq_true] at hbad
              rcases hbad with hl | hr
              · simp [hd] at hl
              · exact hr
            obtain ⟨err, herr⟩ := ih rest hrest hr pfx tree
            refine ⟨err, ?_⟩
            rw [buildGo.eq_3, if_pos hd]
            exact herr
          · rcases hrec : buildGo (pfx ++ "/" ++ dn) [("__files__", PyVal.files [])]
                (sortEntries sub) with e' | subtree
            · refine ⟨e', ?_⟩
              rw [buildGo.eq_3, if_neg hd, hrec]
            · have hsubsize : sizeOf (sortEntries sub) ≤ n := by
                rw [sizeOf_sortEntries]
                simp at hN
                omega
              simp only [Bool.or_eq_true, Bool.and_eq_true] at hbad
              rcases hbad with ⟨_, hsub⟩ | hr
              · exfalso
                have hsort : badList (sortEntries sub) = true := by
                  rw [badList_sortEntries]
                  exact hsub
                obtain ⟨err, herr⟩ := ih _ hsubsize hsort (pfx ++ "/" ++ dn)
                  [("__files__", PyVal.files [])]
                rw [herr] at hrec
                exact absurd hrec (by simp)
              · obtain ⟨err, herr⟩ := ih rest hrest hr pfx
                  (dictInsert tree dn (PyVal.dict subtree))
                refine ⟨err, ?_⟩
                rw [buildGo.eq_3, if_neg hd, hrec]
                exact herr

theorem buildTopicsGo_error :
    ∀ (l : List FSEntry) (acc : List (String × PyTree)),
      (∃ e ∈ l, ∃ dn dls, e = FSEntry.dir dn dls ∧
        ∃ err, build_directory_tree dn dls = .error err) →
      ∃ err, buildTopicsGo acc l = .error err := by
  intro l
  induction l with
  | nil =>
    rintro acc ⟨e, he, _⟩
    exact absurd he (by simp)
  | cons x rest ih =>
    rintro acc ⟨e, he, dn, dls, hedir, err, herr⟩
    cases x with
    | file xn xc =>
      rcases List.mem_cons.mp he with heq | hmem
      · rw [hedir] at heq
        exact absurd heq (by simp)
      · exact ih acc ⟨e, hmem, dn, dls, hedir, err, herr⟩
    | dir xn xl =>
      rcases hb : build_directory_tree xn xl with e' | tree
      · exact ⟨e', by simp [buildTopicsGo, hb]⟩
      · rcases List.mem_cons.mp he with heq | hmem
        · exfalso
          rw [hedir] at heq
          injection heq with h1 h2
          rw [← h1, ← h2] at hb
          rw [herr] at hb
          exact absurd hb (by simp)
        · have := ih (dictInsert acc xn tree) ⟨e, hmem, dn, dls, hedir, err, herr⟩
          simpa [buildTopicsGo, hb] using this

/-- C9: whenever a traversal error (a non-excluded directory whose listing
fails) or a decode error (a qualifying document that cannot be decoded)
occurs anywhere in the scanned tree, the run aborts with an exception and
writes nothing: the `README.md` write happens only after the whole
scan–build–render pipeline has succeeded. -/
theorem error_aborts_run (root : Option (List FSEntry)) (h : rootBad root = true) :
    (∃ e, mainRun root = .error e) ∧ mainWrites root = [] := by
  have habort : ∃ e, mainRun root = .error e := by
    cases root with
    | none => exact ⟨.listingError, rfl⟩
    | some items =>
      simp only [rootBad] at h
      rcases List.any_eq_true.mp h with ⟨e, he, hbade⟩
      have hfail : ∃ dn dls, e = FSEntry.dir dn dls ∧
          (∃ err, build_directory_tree dn dls = .error err) ∧ dn ∉ IGNORE_DIRS := by
        cases e with
        | file n c => simp at hbade
        | dir dn dl =>
          cases dl with
          | none =>
            simp only [Bool.not_eq_true'] at hbade
            refine ⟨dn, none, rfl, ⟨.listingError, rfl⟩, by simpa using hbade⟩
          | some es =>
            simp only [Bool.and_eq_true, Bool.not_eq_true'] at hbade
            have hsort : badList (sortEntries es) = true := by
              rw [badList_sortEntries]
              exact hbade.2
            obtain ⟨err, herr⟩ := buildGo_error_of_bad (sizeOf (sortEntries es)) _ le_rfl
              hsort dn [("__files__", PyVal.files [])]
            exact ⟨dn, some es, rfl, ⟨err, herr⟩, by simpa using hbade.1⟩
      obtain ⟨dn, dls, hedir, ⟨err, herr⟩, hnotig⟩ := hfail
      have hmem : e ∈ topicDirsOf items := by
        apply (List.mem_insertionSort entryKeyLe).mpr
        apply List.mem_filter.mpr
        refine ⟨he, ?_⟩
        rw [hedir]
        simpa using hnotig
      obtain ⟨err2, herr2⟩ := buildTopicsGo_error (topicDirsOf items) []
        ⟨e, hmem, dn, dls, hedir, err, herr⟩
      exact ⟨err2, by simp [mainRun, herr2]⟩
  obtain ⟨e, he⟩ := habort
  exact ⟨⟨e, he⟩, by simp [mainWrites, he]⟩

/-! ## C3 — case-insensitive ordering of links and headings -/

theorem entryDoc_snd (pfx : String) (e : FSEntry) :
    Prod.snd (entryDoc pfx e) = pfx ++ "/" ++ e.name := by
  cases e with
  | file n c => cases c <;> rfl
  | dir n l => rfl

theorem docsOfEntries_snd (pfx : String) (es : List FSEntry) :
    (docsOfEntries pfx es).map Prod.snd =
      (qualFileNames es).map (fun n => pfx ++ "/" ++ n) := by
  have hfun : (Prod.snd ∘ entryDoc pfx) = (fun e : FSEntry => pfx ++ "/" ++ e.name) :=
    funext (fun e => entryDoc_snd pfx e)
  simp [docsOfEntries, qualFileNames, List.map_map, hfun]

theorem buildGo_files (pfx : String) :
    ∀ (es : List FSEntry) (tree t : PyTree) (fl₀ : List (String × String)),
      (∀ n l, FSEntry.dir n l ∈ es → n ≠ "__files__") →
      dictGet? tree "__files__" = some (PyVal.files fl₀) →
      buildGo pfx tree es = .ok t →
      dictGet? t "__files__" = some (PyVal.files (fl₀ ++ docsOfEntries pfx es)) := by
  intro es
  induction es with
  | nil =>
    intro tree t fl₀ _ hget hb
    simp only [buildGo, Except.ok.injEq] at hb
    rw [← hb, hget]
    simp [docsOfEntries]
  | cons e rest ih =>
    intro tree t fl₀ hnames hget hb
    have hnames' : ∀ n l, FSEntry.dir n l ∈ rest → n ≠ "__files__" :=
      fun n l hm => hnames n l (List.mem_cons_of_mem _ hm)
    cases e with
    | dir dn dl =>
      have hdn : dn ≠ "__files__" := hnames dn dl (List.mem_cons_self _ _)
      have hdocs : docsOfEntries pfx (FSEntry.dir dn dl :: rest) = docsOfEntries pfx rest := by
        simp [docsOfEntries, isQualFile]
      rw [hdocs]
      cases dl with
      | none =>
        by_cases hd : dn ∈ IGNORE_DIRS
        · rw [buildGo.eq_2, if_pos hd] at hb
          exact ih tree t fl₀ hnames' hget hb
        · rw [buildGo.eq_2, if_neg hd] at hb
          exact absurd hb (by simp)
      | some sub =>
        by_cases hd : dn ∈ IGNORE_DIRS
        · rw [buildGo.eq_3, if_pos hd] at hb
          exact ih tree t fl₀ hnames' hget hb
        · rw [buildGo.eq_3, if_neg hd] at hb
          rcases hrec : buildGo (pfx ++ "/" ++ dn) [("__files__", PyVal.files [])]
              (sortEntries sub) with e' | subtree
          · rw [hrec] at hb
            exact absurd hb (by simp)
          · rw [hrec] at hb
            have hget' : dictGet? (dictInsert tree dn (PyVal.dict subtree)) "__files__" =
                some (PyVal.files fl₀) := by
              rw [dictGet?_dictInsert_ne _ _ _ _ (Ne.symm hdn)]
              exact hget
            exact ih _ t fl₀ hnames' hget' hb
    | file fn fc =>
      by_cases hq : (hasMdSuffix fn && !IGNORE_FILES.contains fn) = true
      · cases fc with
        | none =>
          rw [buildGo.eq_4, if_pos hq] at hb
          exact absurd hb (by simp [extractTitle])
        | some lines =>
          rw [buildGo.eq_4, if_pos hq] at hb
          simp only [extractTitle] at hb
          rw [hget] at hb
          have hq1 : hasMdSuffix fn = true ∧ fn ∉ IGNORE_FILES := by simpa using hq
          have hdocs : docsOfEntries pfx (FSEntry.file fn (some lines) :: rest) =
              (extract_title_from_md lines (pyStem fn), pfx ++ "/" ++ fn)
                :: docsOfEntries pfx rest := by
            simp [docsOfEntries, List.filter_cons, isQualFile, hq1.1, hq1.2, entryDoc]
          rw [hdocs]
          have hget' : dictGet? (dictInsert tree "__files__"
              (PyVal.files (fl₀ ++ [(extract_title_from_md lines (pyStem fn),
                pfx ++ "/" ++ fn)]))) "__files__" =
              some (PyVal.files (fl₀ ++ [(extract_title_from_md lines (pyStem fn),
                pfx ++ "/" ++ fn)])) := dictGet?_dictInsert_self _ _ _
          have := ih _ t _ hnames' hget' hb
          rw [this]
          simp
      · have hdocs : docsOfEntries pfx (FSEntry.file fn fc :: rest) =
            docsOfEntries pfx rest := by
          simp only [docsOfEntries, List.filter_cons, isQualFile]
          rw [if_neg]
          simpa using hq
        rw [hdocs]
        rw [buildGo.eq_4, if_neg] at hb
        · exact ih tree t fl₀ hnames' hget hb
        · simpa using hq

/-- C3: the document links and the subsection headings of every directory are
emitted in case-insensitive lexicographic order of entry name.  First
conjunct: a successful build stores under `"__files__"` exactly the documents
of the case-insensitively sorted entry list, whose relative paths are the
sorted qualifying file names prefixed by the directory path, and those names
are pairwise in case-insensitive order (the renderer emits one link per tuple
in list order).  Second conjunct: the subdirectory list every render iterates
is pairwise key-sorted case-insensitively.  Third and fourth conjuncts: on a
directory with entries `B.md`, `a.md`, `Z` (dir), `c` (dir), the build and
the render put `a.md` before `B.md` and `c` before `Z`. -/
theorem ordering_invariant :
    (∀ (pfx : String) (es : List FSEntry) (t : PyTree),
      (∀ n l, FSEntry.dir n l ∈ es → n ≠ "__files__") →
      build_directory_tree pfx (some es) = .ok t →
      dictGet? t "__files__" =
          some (PyVal.files (docsOfEntries pfx (sortEntries es))) ∧
        (docsOfEntries pfx (sortEntries es)).map Prod.snd =
          (qualFileNames (sortEntries es)).map (fun n => pfx ++ "/" ++ n) ∧
        (qualFileNames (sortEntries es)).Pairwise keyLe) ∧
    (∀ t : PyTree, ((subdirsOf t).map Prod.fst).Pairwise keyLe) ∧
    build_directory_tree "t" (some [FSEntry.file "B.md" (some []),
        FSEntry.file "a.md" (some []), FSEntry.dir "Z" (some []),
        FSEntry.dir "c" (some [])]) =
      .ok [("__files__", PyVal.files [("a", "t/a.md"), ("B", "t/B.md")]),
           ("c", PyVal.dict [("__files__", PyVal.files [])]),
           ("Z", PyVal.dict [("__files__", PyVal.files [])])] ∧
    render_subtree [("__files__", PyVal.files [("a", "t/a.md"), ("B", "t/B.md")]),
           ("c", PyVal.dict [("__files__", PyVal.files [])]),
           ("Z", PyVal.dict [("__files__", PyVal.files [])])] 4 "t" =
      .ok "- [a](t/a.md)\n- [B](t/B.md)\n\n#### c\n\n\n\n#### Z\n\n\n" := by
  refine ⟨?_, ?_, ?_, ?_⟩
  · intro pfx es t hnames hb
    simp only [build_directory_tree] at hb
    have hnames' : ∀ n l, FSEntry.dir n l ∈ sortEntries es → n ≠ "__files__" := by
      intro n l hm
      exact hnames n l ((List.mem_insertionSort entryKeyLe).mp hm)
    have hchar := buildGo_files pfx (sortEntries es) _ t [] hnames'
      (by simp [dictGet?]) hb
    refine ⟨by simpa using hchar, docsOfEntries_snd pfx _, ?_⟩
    have hsorted : List.Pairwise entryKeyLe (sortEntries es) := sortEntries_sorted es
    have hfiltered : List.Pairwise entryKeyLe ((sortEntries es).filter isQualFile) :=
      List.Pairwise.sublist (List.filter_sublist _) hsorted
    have : List.Pairwise (fun a b : FSEntry => keyLe a.name b.name)
        ((sortEntries es).filter isQualFile) := hfiltered
    simpa [qualFileNames, List.pairwise_map] using this
  · intro t
    have hsorted : List.Pairwise pairKeyLe (subdirsOf t) := subdirsOf_sorted t
    simpa [List.pairwise_map] using hsorted
  · simp +decide [build_directory_tree, buildGo, sortEntries, List.insertionSort,
      List.orderedInsert, entryKeyLe, keyLe, pyLower, pyCharLower, lexLe, FSEntry.name,
      IGNORE_DIRS, IGNORE_FILES, hasMdSuffix, extractTitle, extract_title_from_md, pyStem,
      dictGet?, dictInsert]
  · have h0 : render_subtree [("__files__", PyVal.files [])] 5 "t/c" = .ok "" := by
      rw [render_subtree_unfold]
      simp [fileLines, subdirsOf, dictGet?, seqExcept, String.intercalate]
    have h1 : render_subtree [("__files__", PyVal.files [])] 5 "t/Z" = .ok "" := by
      rw [render_subtree_unfold]
      simp [fileLines, subdirsOf, dictGet?, seqExcept, String.intercalate]
    rw [render_subtree_unfold]
    simp +decide [fileLines, subdirsOf, dictGet?, seqExcept, h0, h1, hashes, subdirBlock,
      Except.map, List.insertionSort, List.orderedInsert, pairKeyLe, keyLe, pyLower,
      pyCharLower, lexLe, String.intercalate, List.intercalate]

/-! ## C1 — the shape of the rendered subtree -/

theorem exceptCase_ok {α β : Type} (a : α) (f : α → Except PyErr β) :
    exceptCase (.ok a) f = f a := rfl

/-- The renderer `render_subtree`, unfolded once into sequencing combinators. -/
theorem render_subtree_unfoldE (tree : PyTree) (lvl : Nat) (parent : String) :
    render_subtree tree lvl parent =
      exceptCase (fileLines tree) (fun fl =>
        exceptCase (seqExcept ((subdirsOf tree).map (subdirBlock lvl parent))) (fun bls =>
          .ok (String.intercalate "\n" (fl ++ bls)))) := by
  rw [render_subtree_unfold]
  rcases fileLines tree with e | fl
  · rfl
  · rcases seqExcept ((subdirsOf tree).map (subdirBlock lvl parent)) with e | bls <;> rfl

theorem WFtree_nil : WFtree [] = true := by
  rw [WFtree.eq_1]

theorem WFtree_cons (k : String) (v : PyVal) (rest : PyTree) :
    WFtree ((k, v) :: rest) =
      ((if k = "__files__" then
          (match v with | PyVal.files _ => true | PyVal.dict _ => false)
        else
          (match v with | PyVal.files _ => false | PyVal.dict d => WFtree d))
        && WFtree rest) := by
  cases v with
  | files l => rw [WFtree.eq_2]
  | dict d => rw [WFtree.eq_3]

theorem WFtree_mem :
    ∀ {t : PyTree}, WFtree t = true → ∀ {k : String} {v : PyVal}, (k, v) ∈ t →
      (k = "__files__" → ∃ l, v = PyVal.files l) ∧
      (k ≠ "__files__" → ∃ d, v = PyVal.dict d ∧ WFtree d = true) := by
  intro t
  induction t with
  | nil =>
    intro _ k v hm
    exact absurd hm (by simp)
  | cons kv rest ih =>
    intro ht k v hm
    rcases kv with ⟨k', v'⟩
    rw [WFtree_cons] at ht
    simp only [Bool.and_eq_true] at ht
    rcases List.mem_cons.mp hm with heq | hmem
    · injection heq with h1 h2
      subst h1
      subst h2
      constructor
      · intro hk
        rw [if_pos hk] at ht
        cases v with
        | files l => exact ⟨l, rfl⟩
        | dict d => simp at ht
      · intro hk
        rw [if_neg hk] at ht
        cases v with
        | files l => simp at ht
        | dict d => exact ⟨d, rfl, ht.1⟩
    · exact ih ht.2 hmem

theorem fileLines_of_WF {t : PyTree} (ht : WFtree t = true) :
    fileLines t = .ok ((docsOf t).map linkLine ++ (if docsOf t = [] then [] else [""])) := by
  rcases hget : dictGet? t "__files__" with _ | v
  · simp [fileLines, docsOf, hget]
  · have hmem := dictGet?_mem hget
    rcases (WFtree_mem ht hmem).1 rfl with ⟨l, rfl⟩
    by_cases hl : l = []
    · subst hl
      simp [fileLines, hget, docsOf]
    · simp [fileLines, hget, docsOf, hl, linkLine]

theorem subdirsOf_WF {t : PyTree} (ht : WFtree t = true) {k : String} {v : PyVal}
    (hm : (k, v) ∈ subdirsOf t) :
    k ≠ "__files__" ∧ ∃ d, v = PyVal.dict d ∧ WFtree d = true := by
  have h2 : (k, v) ∈ t.filter (fun kv => kv.1 ≠ "__files__") :=
    (List.mem_insertionSort pairKeyLe).mp hm
  have h3 : (k, v) ∈ t := List.mem_of_mem_filter h2
  have hk : k ≠ "__files__" := by
    have := List.of_mem_filter h2
    simpa using this
  exact ⟨hk, (WFtree_mem ht h3).2 hk⟩

theorem render_eq_claim :
    ∀ (fuel : Nat) (t : PyTree), sizeOf t ≤ fuel →
    ∀ (lvl : Nat) (p : String), WFtree t = true →
    render_subtree t lvl p = .ok (claimRender t lvl) := by
  intro fuel
  induction fuel with
  | zero =>
    intro t h
    exfalso
    cases t with
    | nil => simp at h
    | cons a b => simp at h
  | succ n ih =>
    intro t hN lvl p ht
    have hblocks : ∀ kv ∈ subdirsOf t, subdirBlock lvl p kv = .ok (claimBlock lvl kv) := by
      rintro ⟨k, v⟩ hm
      obtain ⟨hk, d, rfl, hd⟩ := subdirsOf_WF ht hm
      have hsize : sizeOf d ≤ n := by
        have h2 := (List.mem_insertionSort pairKeyLe).mp hm
        have h3 := List.sizeOf_lt_of_mem (List.mem_of_mem_filter h2)
        simp at h3
        omega
      have hrec := ih d hsize (lvl + 1) (p ++ "/" ++ k) hd
      simp [subdirBlock, claimBlock, hrec, Except.map]
    have hseq := seqExcept_map_ok (subdirsOf t) (subdirBlock lvl p) (claimBlock lvl) hblocks
    rw [render_subtree_unfoldE]
    simp only [fileLines_of_WF ht, exceptCase_ok, hseq]
    rw [claimRender_unfold, List.append_assoc]

/-- C1: for every well-shaped node and every heading level, the renderer
emits exactly what the claim describes (`claimRender`): one link line per
document in order, one blank separator line iff at least one document was
listed, then for each child directory (case-insensitively sorted) a heading
line with `heading_level` many `'#'` marker characters and the child's name,
a blank line, the recursive render of that child at `heading_level + 1`, and
a trailing blank line. -/
theorem render_structure (t : PyTree) (lvl : Nat) (p : String) (ht : WFtree t = true) :
    render_subtree t lvl p = .ok (claimRender t lvl) :=
  render_eq_claim (sizeOf t) t le_rfl lvl p ht

theorem render_structure_witness :
    WFtree [("__files__", PyVal.files [("T", "t/a.md")]),
      ("sub", PyVal.dict [("__files__", PyVal.files [])])] = true ∧
    render_subtree [("__files__", PyVal.files [("T", "t/a.md")]),
      ("sub", PyVal.dict [("__files__", PyVal.files [])])] 4 "t" =
      .ok (claimRender [("__files__", PyVal.files [("T", "t/a.md")]),
        ("sub", PyVal.dict [("__files__", PyVal.files [])])] 4) := by
  have hwf : WFtree [("__files__", PyVal.files [("T", "t/a.md")]),
      ("sub", PyVal.dict [("__files__", PyVal.files [])])] = true := by
    simp [WFtree_cons, WFtree_nil]
  exact ⟨hwf, render_structure _ 4 "t" hwf⟩

theorem ordering_invariant_witness :
    (∀ n l, FSEntry.dir n l ∈ [FSEntry.file "note.md" (some [])] → n ≠ "__files__") ∧
    build_directory_tree "t" (some [FSEntry.file "note.md" (some [])]) =
      .ok [("__files__", PyVal.files [("note", "t/note.md")])] ∧
    dictGet? [("__files__", PyVal.files [("note", "t/note.md")])] "__files__" =
      some (PyVal.files (docsOfEntries "t" (sortEntries [FSEntry.file "note.md" (some [])]))) := by
  have hb : build_directory_tree "t" (some [FSEntry.file "note.md" (some [])]) =
      .ok [("__files__", PyVal.files [("note", "t/note.md")])] := by
    simp +decide [build_directory_tree, buildGo, sortEntries, List.insertionSort,
      IGNORE_FILES, hasMdSuffix, extractTitle, extract_title_from_md, pyStem,
      dictGet?, dictInsert]
  have hn : ∀ n l, FSEntry.dir n l ∈ [FSEntry.file "note.md" (some [])] → n ≠ "__files__" := by
    intro n l hm
    simp at hm
  exact ⟨hn, hb, (ordering_invariant.1 "t" [FSEntry.file "note.md" (some [])] _ hn hb).1⟩

theorem error_aborts_run_witness :
    rootBad (some [FSEntry.dir "go" (some [FSEntry.file "broken.md" none])]) = true ∧
    (∃ e, mainRun (some [FSEntry.dir "go" (some [FSEntry.file "broken.md" none])]) =
      .error e) ∧
    mainWrites (some [FSEntry.dir "go" (some [FSEntry.file "broken.md" none])]) = [] := by
  have hbad : rootBad (some [FSEntry.dir "go" (some [FSEntry.file "broken.md" none])]) = true := by
    simp [rootBad, badList, hasMdSuffix, IGNORE_FILES, IGNORE_DIRS, entryBad]
    decide
  have := error_aborts_run _ hbad
  exact ⟨hbad, this.1, this.2⟩

end UpdateReadme
